import Mathlib

/-!
Shallow embedding of `src/rrbac.js` (RRBAC: resource- and role-hierarchy
based access control).

Resources are indexed by `Fin m`, roles by `Fin k`.  Actions are an
opaque token type `α` with decidable equality (the source uses JS
strings such as `'read'`; nothing in the algorithms depends on the
structure of the tokens).  The whole mutable object graph of the source
(every `Resource` and `Role` object) is gathered into one explicit
state record `Sys`, and each mutating method becomes a state-passing
function.

JS `Map`s with default-empty reads are modelled as total functions into
`Finset`; the key set of the `rwp` map is tracked separately in
`rwpKeys` because `permissionAssignment` branches on `rwp.size === 0`
(emptiness of the key set, across all actions).

The two source loops whose termination rests on the object graph being
tree-shaped (`traverseSubtree`, the `canAccess` climb and the
`propagateRwp` recursion over `accn` links) are given explicit fuel
bounds that are sufficient on every tree-shaped state (`m` resource
nodes admit no simple chain longer than `m`); `getAncestors`, whose
cycle-safety is itself a specified property, is embedded by genuine
well-founded recursion mirroring its visited-set loop.
-/

namespace RRBAC

/-- The whole mutable state of the source object graph: per-resource
fields of `class Resource` (`parent`, `children`, `rwp`, `erwp`,
`acpn`, `accn`) and per-role fields of `class Role` (`parents`,
`children`, prefixed `r` to avoid clashes). -/
structure Sys (m k : ℕ) (α : Type) where
  parent : Fin m → Option (Fin m)
  children : Fin m → List (Fin m)
  rwpKeys : Fin m → Finset α
  rwp : Fin m → α → Finset (Fin k)
  erwp : Fin m → α → Finset (Fin k)
  acpn : Fin m → Option (Fin m)
  accn : Fin m → Finset (Fin m)
  rparents : Fin k → Finset (Fin k)
  rchildren : Fin k → Finset (Fin k)

/-- The state in which every node was just constructed: all permission
maps empty, no links anywhere (the `Resource` and `Role`
constructors). -/
def initSys (m k : ℕ) (α : Type) : Sys m k α where
  parent := fun _ => none
  children := fun _ => []
  rwpKeys := fun _ => ∅
  rwp := fun _ _ => ∅
  erwp := fun _ _ => ∅
  acpn := fun _ => none
  accn := fun _ => ∅
  rparents := fun _ => ∅
  rchildren := fun _ => ∅

variable {m k : ℕ} {α : Type}

/-- `Resource.addChild`: `childNode.parent = this; this.children.push(childNode)`. -/
def addChild (s : Sys m k α) (p c : Fin m) : Sys m k α :=
  { s with
    parent := Function.update s.parent c (some p)
    children := Function.update s.children p (s.children p ++ [c]) }

/-- `Role.addParent`: `this.parents.add(parentRole); parentRole.children.add(this)`. -/
def addParent (s : Sys m k α) (r p : Fin k) : Sys m k α :=
  { s with
    rparents := Function.update s.rparents r (insert p (s.rparents r))
    rchildren := Function.update s.rchildren p (insert r (s.rchildren p)) }

/-- The set of nodes visited by `Resource.traverseSubtree` when started
(as in `permissionAssignment`) from each node of the list `l`,
following `children` edges for at most `fuel` further levels.  On a
tree-shaped state fuel `m` covers every reachable node, so this equals
the visited set of the source's unguarded breadth-first queue (which
itself terminates only on finite acyclic `children` graphs). -/
def visitedFrom (ch : Fin m → List (Fin m)) : ℕ → List (Fin m) → Finset (Fin m)
  | 0, l => l.toFinset
  | fuel + 1, l => l.toFinset ∪ visitedFrom ch fuel (l.foldr (fun c acc => ch c ++ acc) [])

/-- Enumerate a finite set of indices as a list, in ascending index
order: a deterministic model of JS `Set` iteration (the source
algorithms depend only on which elements are iterated, never on the
order). -/
def setToList {n : ℕ} (s : Finset (Fin n)) : List (Fin n) :=
  (List.finRange n).filter (fun i => i ∈ s)

/-- The visited-set loop of `Role.getAncestors`: pop the queue, skip
visited roles, otherwise mark visited and enqueue the role's parents.
Terminates because each step either grows the visited set (bounded by
`k`) or shortens the queue. -/
def ancestorsAux (g : Fin k → Finset (Fin k)) :
    Finset (Fin k) → List (Fin k) → Finset (Fin k)
  | visited, [] => visited
  | visited, c :: rest =>
    if h : c ∈ visited then
      ancestorsAux g visited rest
    else
      ancestorsAux g (insert c visited) (rest ++ setToList (g c))
termination_by visited queue => (k - visited.card, queue.length)
decreasing_by
  · exact Prod.Lex.right _ (Nat.lt_succ_self _)
  · apply Prod.Lex.left
    have hle : visited.card ≤ k := by simpa using visited.card_le_univ
    have hlt : visited.card < k := by
      rcases Nat.lt_or_ge visited.card k with h1 | h1
      · exact h1
      · exfalso
        apply h
        have huniv : visited = Finset.univ :=
          Finset.eq_univ_of_card _ (by simpa using le_antisymm hle h1)
        rw [huniv]
        exact Finset.mem_univ c
    rw [Finset.card_insert_of_not_mem h]
    omega

/-- `Role.getAncestors`, with the role hierarchy's `parents` adjacency
given as `g`: start the queue at the role's own parents with an empty
visited set. -/
def getAncestors (g : Fin k → Finset (Fin k)) (r : Fin k) : Finset (Fin k) :=
  ancestorsAux g ∅ (setToList (g r))

/-- `RRBACSystem.propagateRwp`, with explicit recursion fuel.  Union
`newRwp` into `erwp[action]` at the node; if the set actually grew,
recurse into each access-control child.  Along any recursion path every
call but the last strictly grows its node's set, and after a node's
first growing call its set contains all of `newRwp`, so recursion paths
visit distinct nodes: on every state depth `m + 1` is never exhausted,
matching the source exactly. -/
def propagateRwp [DecidableEq α] : ℕ → Sys m k α → Fin m → Finset (Fin k) → α → Sys m k α
  | 0, s, _, _, _ => s
  | fuel + 1, s, n, newRwp, a =>
    let before := s.erwp n a
    let after := before ∪ newRwp
    let s' : Sys m k α :=
      { s with erwp := fun i x => if i = n ∧ x = a then after else s.erwp i x }
    if before.card < after.card then
      (setToList (s'.accn n)).foldl (fun st c => propagateRwp fuel st c newRwp a) s'
    else s'
termination_by structural fuel => fuel

/-- Lines 146–168 of `permissionAssignment`: if this is the first
permission of any kind on the node (`wasEmpty`, i.e. `rwp.size === 0`),
record the old boundary, clear the node's own `acpn`, add the node to
the old boundary's `accn` when it exists, and re-point every node
reachable from the node's children whose `acpn` equals the old
boundary.  The source sets `resourceNode.acpn = null` before the
traversal and the traversal compares each node's `acpn` against the
captured `originalAcpn`, which is what `acpn1` reproduces. -/
def rewireFirst [DecidableEq α] (s : Sys m k α) (n : Fin m) : Sys m k α :=
  if s.rwpKeys n = ∅ then
    let originalAcpn := s.acpn n
    let acpn1 := Function.update s.acpn n none
    let desc := visitedFrom s.children m (s.children n)
    { s with
      acpn := fun i => if i ∈ desc ∧ acpn1 i = originalAcpn then some n else acpn1 i
      accn :=
        match originalAcpn with
        | some b => Function.update s.accn b (insert n (s.accn b))
        | none => s.accn }
  else s

/-- Lines 170–174 of `permissionAssignment`: add the explicit
permission, creating the action entry (key) if absent. -/
def addExplicit [DecidableEq α] (s : Sys m k α) (n : Fin m) (r : Fin k) (a : α) :
    Sys m k α :=
  { s with
    rwpKeys := Function.update s.rwpKeys n (insert a (s.rwpKeys n))
    rwp := fun i x => if i = n ∧ x = a then insert r (s.rwp i x) else s.rwp i x }

/-- The body of `RRBACSystem.permissionAssignment` with the
seniority-expanded role set `newRwp` (the source's
`new Set([role])` ∪ `role.getAncestors()`) passed as an argument, so
that concrete states can be evaluated after computing the closure once.
`permissionAssignment` below instantiates it with the closure, exactly
as the source computes it.  Early idempotence exit; otherwise rewire
the shortcuts on a first-ever permission, record the explicit
permission, and propagate `newRwp`. -/
def permissionAssignmentWith [DecidableEq α]
    (s : Sys m k α) (n : Fin m) (r : Fin k) (a : α) (newRwp : Finset (Fin k)) :
    Sys m k α :=
  if r ∈ s.rwp n a then s
  else propagateRwp (m + 1) (addExplicit (rewireFirst s n) n r a) n newRwp a

/-- `RRBACSystem.permissionAssignment`: the body above with
`newRwp := {role} ∪ role.getAncestors()`. -/
def permissionAssignment [DecidableEq α]
    (s : Sys m k α) (n : Fin m) (r : Fin k) (a : α) : Sys m k α :=
  permissionAssignmentWith s n r a (insert r (getAncestors s.rparents r))

/-- The climbing loop of `RRBACSystem.canAccess` over an optional
current node, with explicit fuel. -/
def canAccessAux [DecidableEq α] (s : Sys m k α) :
    ℕ → Fin k → Option (Fin m) → α → Bool
  | 0, _, _, _ => false
  | _ + 1, _, none, _ => false
  | fuel + 1, r, some n, a =>
    if r ∈ s.erwp n a then true else canAccessAux s fuel r (s.acpn n) a

/-- `RRBACSystem.canAccess`: climb the `acpn` chain from the queried
resource.  On tree-consistent states the chain strictly ascends, so
fuel `m + 1` is never exhausted and this equals the source's unbounded
`while` loop. -/
def canAccess [DecidableEq α] (s : Sys m k α) (r : Fin k) (n : Fin m) (a : α) : Bool :=
  canAccessAux s (m + 1) r (some n) a

/-- One senior edge of the role hierarchy with `parents` adjacency `g`:
`b` is a direct parent (senior) of `a`.  Transitive reachability along
this relation is what `getAncestors` is specified to compute. -/
def seniorStep (g : Fin k → Finset (Fin k)) (a b : Fin k) : Prop :=
  b ∈ g a

/-- A hierarchy-construction step: one call of the public constructors
`Resource.addChild` or `Role.addParent`. -/
inductive SetupStep : Sys m k α → Sys m k α → Prop
  | child (s : Sys m k α) (p c : Fin m) : SetupStep s (addChild s p c)
  | senior (s : Sys m k α) (r p : Fin k) : SetupStep s (addParent s r p)

/-- One call of the public mutator `RRBACSystem.permissionAssignment`. -/
inductive AssignStep [DecidableEq α] : Sys m k α → Sys m k α → Prop
  | assign (s : Sys m k α) (n : Fin m) (r : Fin k) (a : α) :
      AssignStep s (permissionAssignment s n r a)

/-- Any single public mutating operation. -/
def Step [DecidableEq α] (s t : Sys m k α) : Prop :=
  SetupStep s t ∨ AssignStep s t

/-- States reachable from freshly constructed nodes by any finite
sequence of public operations (`canAccess` is a pure query and mutates
nothing). -/
def Reachable [DecidableEq α] (s : Sys m k α) : Prop :=
  Relation.ReflTransGen Step (initSys m k α) s

/-- States reachable under the documented lifecycle: both hierarchies
are fully built first, and only then are permissions assigned. -/
def LifecycleReachable [DecidableEq α] (s : Sys m k α) : Prop :=
  ∃ s0, Relation.ReflTransGen SetupStep (initSys m k α) s0 ∧
    Relation.ReflTransGen AssignStep s0 s

/-- The seniority closure is fully baked into `erwp` at the node of
every explicit grant: whenever `q ∈ rwp[n][a]`, the whole set
`{q} ∪ getAncestors(q)` is inside `erwp[n][a]`. -/
def ClosureInv [DecidableEq α] (s : Sys m k α) : Prop :=
  ∀ (n : Fin m) (a : α) (q : Fin k),
    q ∈ s.rwp n a → insert q (getAncestors s.rparents q) ⊆ s.erwp n a

/-- Concrete two-node chain: resource 0 is the root, resource 1 its
child; one role, actions are numbers.  `exA2` assigns action 0 to role
0 at the child first, then action 1 to role 0 at the root. -/
def exA : Sys 2 1 ℕ := addChild (initSys 2 1 ℕ) 0 1

/-- `exA` after `permissionAssignment(node 1, role 0, action 0)`. -/
def exA1 : Sys 2 1 ℕ := permissionAssignment exA 1 0 0

/-- `exA1` after `permissionAssignment(node 0, role 0, action 1)`:
the root is granted a permission after its child already carries one. -/
def exA2 : Sys 2 1 ℕ := permissionAssignment exA1 0 0 1

/-- Concrete three-node chain 0 → 1 → 2 with one role. -/
def exB : Sys 3 1 ℕ := addChild (addChild (initSys 3 1 ℕ) 0 1) 1 2

/-- `exB` after `permissionAssignment(node 0, role 0, action 0)`. -/
def exB1 : Sys 3 1 ℕ := permissionAssignment exB 0 0 0

/-- `exB1` after `permissionAssignment(node 2, role 0, action 1)`. -/
def exB2 : Sys 3 1 ℕ := permissionAssignment exB1 2 0 1

/-- `exB2` after `permissionAssignment(node 1, role 0, action 2)`:
the middle node is granted its first permission while its descendant
node 2 is already a permission boundary. -/
def exB3 : Sys 3 1 ℕ := permissionAssignment exB2 1 0 2

theorem mem_setToList {n : ℕ} {s : Finset (Fin n)} {i : Fin n} :
    i ∈ setToList s ↔ i ∈ s := by
  simp [setToList, List.mem_filter, List.mem_finRange]

theorem ancestorsAux_nil (g : Fin k → Finset (Fin k)) (visited : Finset (Fin k)) :
    ancestorsAux g visited [] = visited := by
  unfold ancestorsAux
  rfl

/-- A role with no parents has no ancestors: the queue starts empty and
the loop exits at once. -/
theorem getAncestors_eq_empty (g : Fin k → Finset (Fin k)) (r : Fin k)
    (h : g r = ∅) : getAncestors g r = ∅ := by
  unfold getAncestors
  rw [h]
  have : setToList (∅ : Finset (Fin k)) = [] := by
    simp [setToList, List.filter_eq_nil_iff]
  rw [this, ancestorsAux_nil]

/-- Some element of the list `l` reaches `y` by zero or more senior
edges. -/
def ReachesFrom (g : Fin k → Finset (Fin k)) (l : List (Fin k)) (y : Fin k) : Prop :=
  ∃ q ∈ l, Relation.ReflTransGen (seniorStep g) q y

theorem reachesFrom_mono {g : Fin k → Finset (Fin k)} {l l' : List (Fin k)}
    (hsub : ∀ x, x ∈ l → x ∈ l') {y : Fin k} (h : ReachesFrom g l y) :
    ReachesFrom g l' y := by
  obtain ⟨q, hq, hpath⟩ := h
  exact ⟨q, hsub q hq, hpath⟩

/-- If every parent of a visited role lies in `visited ∪ queue`, then
everything reachable from a visited role lies in `visited` or is
reachable from the queue. -/
theorem visited_closed_reach {g : Fin k → Finset (Fin k)}
    {visited : Finset (Fin k)} {queue : List (Fin k)}
    (hI : ∀ v ∈ visited, ∀ p ∈ g v, p ∈ visited ∨ p ∈ queue)
    {x y : Fin k} (hx : x ∈ visited)
    (hpath : Relation.ReflTransGen (seniorStep g) x y) :
    y ∈ visited ∨ ReachesFrom g queue y := by
  induction hpath with
  | refl => exact Or.inl hx
  | tail hxt hty ih =>
    rcases ih with h1 | h1
    · rcases hI _ h1 _ hty with h2 | h2
      · exact Or.inl h2
      · exact Or.inr ⟨_, h2, Relation.ReflTransGen.refl⟩
    · obtain ⟨q, hq, hpath'⟩ := h1
      exact Or.inr ⟨q, hq, hpath'.tail hty⟩

/-- Everything the visited-set loop returns is already visited or
reachable from the queue. -/
theorem ancestorsAux_sound (g : Fin k → Finset (Fin k)) :
    ∀ (visited : Finset (Fin k)) (queue : List (Fin k)) (y : Fin k),
      y ∈ ancestorsAux g visited queue → y ∈ visited ∨ ReachesFrom g queue y := by
  intro visited queue
  induction visited, queue using ancestorsAux.induct g with
  | case1 visited =>
    intro y hy
    rw [ancestorsAux_nil] at hy
    exact Or.inl hy
  | case2 visited c rest hc ih =>
    intro y hy
    unfold ancestorsAux at hy
    rw [dif_pos hc] at hy
    rcases ih y hy with h1 | h1
    · exact Or.inl h1
    · exact Or.inr (reachesFrom_mono (fun x hx => List.mem_cons_of_mem c hx) h1)
  | case3 visited c rest hc ih =>
    intro y hy
    unfold ancestorsAux at hy
    rw [dif_neg hc] at hy
    rcases ih y hy with h1 | h1
    · rcases Finset.mem_insert.mp h1 with h2 | h2
      · exact Or.inr ⟨c, List.mem_cons_self c rest, h2 ▸ Relation.ReflTransGen.refl⟩
      · exact Or.inl h2
    · obtain ⟨q, hq, hpath⟩ := h1
      rcases List.mem_append.mp hq with h2 | h2
      · exact Or.inr ⟨q, List.mem_cons_of_mem c h2, hpath⟩
      · refine Or.inr ⟨c, List.mem_cons_self c rest, Relation.ReflTransGen.head ?_ hpath⟩
        exact mem_setToList.mp h2

/-- Everything visited or reachable from the queue ends up in the
result, provided every parent of a visited role lies in
`visited ∪ queue`. -/
theorem ancestorsAux_complete (g : Fin k → Finset (Fin k)) :
    ∀ (visited : Finset (Fin k)) (queue : List (Fin k)),
      (∀ v ∈ visited, ∀ p ∈ g v, p ∈ visited ∨ p ∈ queue) →
      ∀ y : Fin k, (y ∈ visited ∨ ReachesFrom g queue y) →
        y ∈ ancestorsAux g visited queue := by
  intro visited queue
  induction visited, queue using ancestorsAux.induct g with
  | case1 visited =>
    intro _ y hy
    rw [ancestorsAux_nil]
    rcases hy with h | ⟨q, hq, _⟩
    · exact h
    · exact absurd hq (List.not_mem_nil q)
  | case2 visited c rest hc ih =>
    intro hI y hy
    unfold ancestorsAux
    rw [dif_pos hc]
    have hI' : ∀ v ∈ visited, ∀ p ∈ g v, p ∈ visited ∨ p ∈ rest := by
      intro v hv p hp
      rcases hI v hv p hp with h1 | h1
      · exact Or.inl h1
      · rcases List.mem_cons.mp h1 with h2 | h2
        · exact Or.inl (h2 ▸ hc)
        · exact Or.inr h2
    refine ih hI' y ?_
    rcases hy with h1 | ⟨q, hq, hpath⟩
    · exact Or.inl h1
    · rcases List.mem_cons.mp hq with h2 | h2
      · exact visited_closed_reach hI' (h2 ▸ hc) hpath
      · exact Or.inr ⟨q, h2, hpath⟩
  | case3 visited c rest hc ih =>
    intro hI y hy
    unfold ancestorsAux
    rw [dif_neg hc]
    have hI' : ∀ v ∈ insert c visited, ∀ p ∈ g v,
        p ∈ insert c visited ∨ p ∈ rest ++ setToList (g c) := by
      intro v hv p hp
      rcases Finset.mem_insert.mp hv with h1 | h1
      · exact Or.inr (List.mem_append.mpr (Or.inr (mem_setToList.mpr (h1 ▸ hp))))
      · rcases hI v h1 p hp with h2 | h2
        · exact Or.inl (Finset.mem_insert_of_mem h2)
        · rcases List.mem_cons.mp h2 with h3 | h3
          · exact Or.inl (h3 ▸ Finset.mem_insert_self c visited)
          · exact Or.inr (List.mem_append.mpr (Or.inl h3))
    refine ih hI' y ?_
    rcases hy with h1 | ⟨q, hq, hpath⟩
    · exact Or.inl (Finset.mem_insert_of_mem h1)
    · rcases List.mem_cons.mp hq with h2 | h2
      · subst h2
        rcases Relation.ReflTransGen.cases_head hpath with h3 | ⟨t, hstep, hpath'⟩
        · exact Or.inl (h3 ▸ Finset.mem_insert_self q visited)
        · exact Or.inr ⟨t, List.mem_append.mpr (Or.inr (mem_setToList.mpr hstep)), hpath'⟩
      · exact Or.inr ⟨q, List.mem_append.mpr (Or.inl h2), hpath⟩

/-- Membership in `getAncestors` is exactly transitive reachability
along senior edges. -/
theorem mem_getAncestors {g : Fin k → Finset (Fin k)} {r y : Fin k} :
    y ∈ getAncestors g r ↔ Relation.TransGen (seniorStep g) r y := by
  constructor
  · intro hy
    rcases ancestorsAux_sound g ∅ (setToList (g r)) y hy with h1 | ⟨q, hq, hpath⟩
    · exact absurd h1 (Finset.not_mem_empty y)
    · exact Relation.TransGen.head'_iff.mpr ⟨q, mem_setToList.mp hq, hpath⟩
  · intro hy
    obtain ⟨q, hstep, hpath⟩ := Relation.TransGen.head'_iff.mp hy
    refine ancestorsAux_complete g ∅ (setToList (g r)) (by simp) y ?_
    exact Or.inr ⟨q, mem_setToList.mpr hstep, hpath⟩

/-- Frame of `propagateRwp`: every field but `erwp` is untouched and
`erwp` only grows pointwise. -/
def PropFrame (s t : Sys m k α) : Prop :=
  t.parent = s.parent ∧ t.children = s.children ∧ t.rwpKeys = s.rwpKeys ∧
    t.rwp = s.rwp ∧ t.acpn = s.acpn ∧ t.accn = s.accn ∧
    t.rparents = s.rparents ∧ t.rchildren = s.rchildren ∧
    ∀ (i : Fin m) (x : α), s.erwp i x ⊆ t.erwp i x

theorem propFrame_refl (s : Sys m k α) : PropFrame s s :=
  ⟨rfl, rfl, rfl, rfl, rfl, rfl, rfl, rfl, fun _ _ => Finset.Subset.refl _⟩

theorem propFrame_trans {s t u : Sys m k α} (h1 : PropFrame s t)
    (h2 : PropFrame t u) : PropFrame s u := by
  obtain ⟨a1, b1, c1, d1, e1, f1, g1, i1, j1⟩ := h1
  obtain ⟨a2, b2, c2, d2, e2, f2, g2, i2, j2⟩ := h2
  exact ⟨a2.trans a1, b2.trans b1, c2.trans c1, d2.trans d1, e2.trans e1,
    f2.trans f1, g2.trans g1, i2.trans i1, fun i x => (j1 i x).trans (j2 i x)⟩

theorem foldl_propFrame {f : Sys m k α → Fin m → Sys m k α}
    (hf : ∀ s c, PropFrame s (f s c)) :
    ∀ (l : List (Fin m)) (s : Sys m k α), PropFrame s (l.foldl f s) := by
  intro l
  induction l with
  | nil => intro s; exact propFrame_refl s
  | cons c rest ih => intro s; exact propFrame_trans (hf s c) (ih (f s c))

theorem propagateRwp_propFrame [DecidableEq α] :
    ∀ (fuel : ℕ) (s : Sys m k α) (n : Fin m) (w : Finset (Fin k)) (a : α),
      PropFrame s (propagateRwp fuel s n w a) := by
  intro fuel
  induction fuel with
  | zero => intro s n w a; exact propFrame_refl s
  | succ fuel ih =>
    intro s n w a
    rw [propagateRwp]
    have h1 : PropFrame s
        { s with erwp := fun i x => if i = n ∧ x = a then s.erwp n a ∪ w else s.erwp i x } := by
      refine ⟨rfl, rfl, rfl, rfl, rfl, rfl, rfl, rfl, fun i x => ?_⟩
      by_cases h : i = n ∧ x = a
      · obtain ⟨rfl, rfl⟩ := h
        simp only [and_self, if_true]
        exact Finset.subset_union_left
      · simp only [h, if_false]
        exact Finset.Subset.refl _
    split
    · exact propFrame_trans h1 (foldl_propFrame (fun s' c => ih s' c w a) _ _)
    · exact h1

/-- After one unfolding of `propagateRwp` with positive fuel, the
propagated set has been unioned into the node's own `erwp[action]`
(whether or not the growth check triggers recursion). -/
theorem propagateRwp_subset_erwp [DecidableEq α]
    (fuel : ℕ) (s : Sys m k α) (n : Fin m) (w : Finset (Fin k)) (a : α) :
    w ⊆ (propagateRwp (fuel + 1) s n w a).erwp n a := by
  have key : ∀ t : Sys m k α, w ⊆ t.erwp n a → ∀ l : List (Fin m),
      w ⊆ ((l.foldl (fun st c => propagateRwp fuel st c w a) t)).erwp n a := by
    intro t ht l
    exact ht.trans
      ((foldl_propFrame (fun s' c => propagateRwp_propFrame fuel s' c w a) l t).2.2.2.2.2.2.2.2 n a)
  rw [propagateRwp]
  split
  · apply key
    simp only [and_self, if_true]
    exact Finset.subset_union_right
  · simp only [and_self, if_true]
    exact Finset.subset_union_right

theorem rewireFirst_parent [DecidableEq α] (s : Sys m k α) (n : Fin m) :
    (rewireFirst s n).parent = s.parent := by
  rw [rewireFirst]; split <;> rfl

theorem rewireFirst_children [DecidableEq α] (s : Sys m k α) (n : Fin m) :
    (rewireFirst s n).children = s.children := by
  rw [rewireFirst]; split <;> rfl

theorem rewireFirst_rwpKeys [DecidableEq α] (s : Sys m k α) (n : Fin m) :
    (rewireFirst s n).rwpKeys = s.rwpKeys := by
  rw [rewireFirst]; split <;> rfl

theorem rewireFirst_rwp [DecidableEq α] (s : Sys m k α) (n : Fin m) :
    (rewireFirst s n).rwp = s.rwp := by
  rw [rewireFirst]; split <;> rfl

theorem rewireFirst_erwp [DecidableEq α] (s : Sys m k α) (n : Fin m) :
    (rewireFirst s n).erwp = s.erwp := by
  rw [rewireFirst]; split <;> rfl

theorem rewireFirst_rparents [DecidableEq α] (s : Sys m k α) (n : Fin m) :
    (rewireFirst s n).rparents = s.rparents := by
  rw [rewireFirst]; split <;> rfl

theorem rewireFirst_rchildren [DecidableEq α] (s : Sys m k α) (n : Fin m) :
    (rewireFirst s n).rchildren = s.rchildren := by
  rw [rewireFirst]; split <;> rfl

/-- `permissionAssignment` re-assigning an already-present triple is
the early no-op exit (lines 140–144 of the source). -/
theorem paw_of_mem [DecidableEq α] {s : Sys m k α} {n : Fin m} {r : Fin k} {a : α}
    (h : r ∈ s.rwp n a) (w : Finset (Fin k)) :
    permissionAssignmentWith s n r a w = s := by
  rw [permissionAssignmentWith, if_pos h]

theorem paw_rwp [DecidableEq α] (s : Sys m k α) (n : Fin m) (r : Fin k) (a : α)
    (w : Finset (Fin k)) (i : Fin m) (x : α) :
    (permissionAssignmentWith s n r a w).rwp i x =
      if i = n ∧ x = a then insert r (s.rwp i x) else s.rwp i x := by
  rw [permissionAssignmentWith]
  split
  · rename_i h
    by_cases h2 : i = n ∧ x = a
    · obtain ⟨rfl, rfl⟩ := h2
      simp only [and_self, if_true]
      exact (Finset.insert_eq_self.mpr h).symm
    · simp only [h2, if_false]
  · have hfr := (propagateRwp_propFrame (m + 1) (addExplicit (rewireFirst s n) n r a) n w a).2.2.2.1
    rw [congrFun (congrFun hfr i) x]
    show (if i = n ∧ x = a then insert r ((rewireFirst s n).rwp i x)
      else (rewireFirst s n).rwp i x) = _
    rw [rewireFirst_rwp]

theorem paw_rwpKeys [DecidableEq α] {s : Sys m k α} {n : Fin m} {r : Fin k} {a : α}
    (h : r ∉ s.rwp n a) (w : Finset (Fin k)) (i : Fin m) :
    (permissionAssignmentWith s n r a w).rwpKeys i =
      if i = n then insert a (s.rwpKeys i) else s.rwpKeys i := by
  rw [permissionAssignmentWith, if_neg h]
  have hfr := (propagateRwp_propFrame (m + 1) (addExplicit (rewireFirst s n) n r a) n w a).2.2.1
  rw [congrFun hfr i]
  show Function.update (rewireFirst s n).rwpKeys n
    (insert a ((rewireFirst s n).rwpKeys n)) i = _
  rw [rewireFirst_rwpKeys, Function.update_apply]
  split <;> simp_all

theorem paw_erwp_mono [DecidableEq α] (s : Sys m k α) (n : Fin m) (r : Fin k) (a : α)
    (w : Finset (Fin k)) (i : Fin m) (x : α) :
    s.erwp i x ⊆ (permissionAssignmentWith s n r a w).erwp i x := by
  rw [permissionAssignmentWith]
  split
  · exact Finset.Subset.refl _
  · have hfr := (propagateRwp_propFrame (m + 1) (addExplicit (rewireFirst s n) n r a) n w a).2.2.2.2.2.2.2.2
    refine Finset.Subset.trans ?_ (hfr i x)
    show s.erwp i x ⊆ (rewireFirst s n).erwp i x
    rw [rewireFirst_erwp]

/-- On the non-trivial path the whole propagated set lands in the
node's `erwp[action]`. -/
theorem paw_newRwp_subset [DecidableEq α] {s : Sys m k α} {n : Fin m} {r : Fin k}
    {a : α} (h : r ∉ s.rwp n a) (w : Finset (Fin k)) :
    w ⊆ (permissionAssignmentWith s n r a w).erwp n a := by
  rw [permissionAssignmentWith, if_neg h]
  exact propagateRwp_subset_erwp m (addExplicit (rewireFirst s n) n r a) n w a

theorem paw_rparents [DecidableEq α] (s : Sys m k α) (n : Fin m) (r : Fin k) (a : α)
    (w : Finset (Fin k)) :
    (permissionAssignmentWith s n r a w).rparents = s.rparents := by
  rw [permissionAssignmentWith]
  split
  · rfl
  · have hfr := (propagateRwp_propFrame (m + 1) (addExplicit (rewireFirst s n) n r a) n w a).2.2.2.2.2.2.1
    rw [hfr]
    show (rewireFirst s n).rparents = s.rparents
    exact rewireFirst_rparents s n

/-- After any `permissionAssignment(n, r, a)` the role is recorded in
`rwp[n][a]`. -/
theorem pa_mem_rwp_self [DecidableEq α] (s : Sys m k α) (n : Fin m) (r : Fin k) (a : α) :
    r ∈ (permissionAssignment s n r a).rwp n a := by
  rw [permissionAssignment, paw_rwp]
  simp

theorem pa_rparents [DecidableEq α] (s : Sys m k α) (n : Fin m) (r : Fin k) (a : α) :
    (permissionAssignment s n r a).rparents = s.rparents := by
  rw [permissionAssignment]
  exact paw_rparents s n r a _

/-- `canAccess` reads only `erwp` and `acpn`: two states agreeing on
those fields answer every query identically. -/
theorem canAccessAux_congr [DecidableEq α] {s t : Sys m k α}
    (he : s.erwp = t.erwp) (ha : s.acpn = t.acpn) :
    ∀ (fuel : ℕ) (q : Fin k) (o : Option (Fin m)) (x : α),
      canAccessAux s fuel q o x = canAccessAux t fuel q o x := by
  intro fuel
  induction fuel with
  | zero => intro q o x; rfl
  | succ fuel ih =>
    intro q o x
    cases o with
    | none => rfl
    | some nn =>
      rw [canAccessAux, canAccessAux, he, ha, ih]

/-- Setup-phase operations never touch the permission maps: before the
first assignment every `rwp` entry is empty. -/
theorem setupReach_rwp_empty {s0 : Sys m k α}
    (h : Relation.ReflTransGen SetupStep (initSys m k α) s0) :
    ∀ (n : Fin m) (a : α), s0.rwp n a = ∅ := by
  induction h with
  | refl => intro n a; rfl
  | tail _ hstep ih =>
    cases hstep with
    | child p c => exact ih
    | senior r p => exact ih

/-- One assignment preserves the baked-in-closure invariant. -/
theorem closureInv_assign [DecidableEq α] {t : Sys m k α} (ih : ClosureInv t)
    (nn : Fin m) (rr : Fin k) (aa : α) :
    ClosureInv (permissionAssignment t nn rr aa) := by
  by_cases hr : rr ∈ t.rwp nn aa
  · rw [permissionAssignment, paw_of_mem hr]
    exact ih
  · intro n a q hq
    have hrp := pa_rparents t nn rr aa
    rw [permissionAssignment, paw_rwp] at hq
    rw [hrp]
    by_cases hcase : n = nn ∧ a = aa
    · obtain ⟨rfl, rfl⟩ := hcase
      rw [if_pos ⟨rfl, rfl⟩] at hq
      rcases Finset.mem_insert.mp hq with rfl | hq2
      · rw [permissionAssignment]
        exact paw_newRwp_subset hr _
      · refine (ih n a q hq2).trans ?_
        rw [permissionAssignment]
        exact paw_erwp_mono _ _ _ _ _ _ _
    · rw [if_neg hcase] at hq
      refine (ih n a q hq).trans ?_
      rw [permissionAssignment]
      exact paw_erwp_mono _ _ _ _ _ _ _

/-- Along a pure assignment phase started from a state with no
explicit permissions, every recorded grant has its full seniority
closure baked into the node's `erwp`. -/
theorem assignReach_closureInv [DecidableEq α] {s0 s : Sys m k α}
    (h0 : ∀ (n : Fin m) (a : α), s0.rwp n a = ∅)
    (h : Relation.ReflTransGen AssignStep s0 s) : ClosureInv s := by
  induction h with
  | refl =>
    intro n a q hq
    rw [h0] at hq
    exact absurd hq (Finset.not_mem_empty q)
  | tail _ hstep ih =>
    cases hstep with
    | assign nn rr aa => exact closureInv_assign ih nn rr aa

/-- C5: under the documented lifecycle (hierarchies built before any
assignment), if `senior` is transitively reachable from `role` along
senior edges (cycles included), then after `assign(n, role, X)` the
query `canAccess(senior, n, X)` answers true. -/
theorem c5_senior_gets_access [DecidableEq α] (s : Sys m k α) (n : Fin m)
    (role senior : Fin k) (X : α) (hl : LifecycleReachable s)
    (hsen : Relation.TransGen (seniorStep s.rparents) role senior) :
    canAccess (permissionAssignment s n role X) senior n X = true := by
  obtain ⟨s0, hsetup, hassign⟩ := hl
  have hinv : ClosureInv (permissionAssignment s n role X) :=
    assignReach_closureInv (setupReach_rwp_empty hsetup)
      (hassign.tail (AssignStep.assign s n role X))
  have hsen' : senior ∈ getAncestors (permissionAssignment s n role X).rparents role := by
    rw [pa_rparents]
    exact mem_getAncestors.mpr hsen
  have herwp : senior ∈ (permissionAssignment s n role X).erwp n X :=
    hinv n X role (pa_mem_rwp_self s n role X) (Finset.mem_insert_of_mem hsen')
  rw [canAccess, canAccessAux, if_pos herwp]

/-- C5 witness: one resource, two roles, role 1 senior to role 0 (set
up before any assignment); granting action 0 to role 0 at node 0 lets
role 1 access it. -/
theorem c5_senior_gets_access_witness :
    LifecycleReachable (addParent (initSys 1 2 ℕ) 0 1) ∧
      canAccess (permissionAssignment (addParent (initSys 1 2 ℕ) 0 1) 0 0 0) 1 0 0 = true := by
  have hl : LifecycleReachable (addParent (initSys 1 2 ℕ) 0 1) :=
    ⟨addParent (initSys 1 2 ℕ) 0 1,
      Relation.ReflTransGen.single (SetupStep.senior _ 0 1), Relation.ReflTransGen.refl⟩
  refine ⟨hl, c5_senior_gets_access _ 0 0 1 0 hl (Relation.TransGen.single ?_)⟩
  show (1 : Fin 2) ∈ (addParent (initSys 1 2 ℕ) 0 1).rparents 0
  decide

/-- C6: membership in `getAncestors` is exactly transitive
reachability along senior edges — in particular the traversal is total
(the definition is by well-founded recursion on the visited-set
measure, cycles included) and its membership is uniquely determined by
the reachability relation. -/
theorem c6_getAncestors_reachability (g : Fin k → Finset (Fin k)) (r y : Fin k) :
    y ∈ getAncestors g r ↔ Relation.TransGen (seniorStep g) r y :=
  mem_getAncestors

/-- C7: re-running the same assignment is a complete no-op — the
second call returns the state of the first unchanged, in every field. -/
theorem c7_assign_idempotent [DecidableEq α] (s : Sys m k α) (n : Fin m)
    (r : Fin k) (a : α) :
    permissionAssignment (permissionAssignment s n r a) n r a =
      permissionAssignment s n r a := by
  conv_lhs => rw [permissionAssignment]
  exact paw_of_mem (pa_mem_rwp_self s n r a) _

/-- C8: `Role.addParent` mutates only the role hierarchy — every
resource-node field is untouched, and therefore every `canAccess`
answer (which reads only `erwp` and `acpn`) is unchanged: a role made
senior after a grant gains nothing retroactively. -/
theorem c8_addParent_resource_frame [DecidableEq α] (s : Sys m k α) (r p : Fin k) :
    (addParent s r p).parent = s.parent ∧
      (addParent s r p).children = s.children ∧
      (addParent s r p).rwpKeys = s.rwpKeys ∧
      (addParent s r p).rwp = s.rwp ∧
      (addParent s r p).erwp = s.erwp ∧
      (addParent s r p).acpn = s.acpn ∧
      (addParent s r p).accn = s.accn ∧
      ∀ (q : Fin k) (n : Fin m) (a : α),
        canAccess (addParent s r p) q n a = canAccess s q n a := by
  refine ⟨rfl, rfl, rfl, rfl, rfl, rfl, rfl, fun q n a => ?_⟩
  rw [canAccess, canAccess]
  exact canAccessAux_congr (s := addParent s r p) (t := s) rfl rfl (m + 1) q (some n) a

/-- One assignment preserves the explicit-inside-effective
containment. -/
theorem rwpSub_assign [DecidableEq α] {t : Sys m k α}
    (ih : ∀ (n : Fin m) (a : α), t.rwp n a ⊆ t.erwp n a)
    (nn : Fin m) (rr : Fin k) (aa : α) :
    ∀ (n : Fin m) (a : α),
      (permissionAssignment t nn rr aa).rwp n a ⊆
        (permissionAssignment t nn rr aa).erwp n a := by
  by_cases hr : rr ∈ t.rwp nn aa
  · rw [permissionAssignment, paw_of_mem hr]
    exact ih
  · intro n a q hq
    rw [permissionAssignment, paw_rwp] at hq
    by_cases hcase : n = nn ∧ a = aa
    · obtain ⟨rfl, rfl⟩ := hcase
      rw [if_pos ⟨rfl, rfl⟩] at hq
      rcases Finset.mem_insert.mp hq with rfl | hq2
      · have hsub : insert q (getAncestors t.rparents q) ⊆
            (permissionAssignment t n q a).erwp n a := by
          rw [permissionAssignment]
          exact paw_newRwp_subset hr _
        exact hsub (Finset.mem_insert_self q _)
      · refine Finset.mem_of_subset ?_ (ih n a hq2)
        rw [permissionAssignment]
        exact paw_erwp_mono _ _ _ _ _ _ _
    · rw [if_neg hcase] at hq
      refine Finset.mem_of_subset ?_ (ih n a hq)
      rw [permissionAssignment]
      exact paw_erwp_mono _ _ _ _ _ _ _

/-- C9: in every reachable state, explicit permissions are contained
in effective permissions, node by node and action by action. -/
theorem c9_rwp_subset_erwp [DecidableEq α] {s : Sys m k α} (h : Reachable s) :
    ∀ (n : Fin m) (a : α), s.rwp n a ⊆ s.erwp n a := by
  induction h with
  | refl => intro n a; exact Finset.Subset.refl _
  | tail _ hstep ih =>
    rcases hstep with hsetup | hassign
    · cases hsetup with
      | child p c => exact ih
      | senior r p => exact ih
    · cases hassign with
      | assign nn rr aa => exact rwpSub_assign ih nn rr aa

/-- C9 witness: the state after one assignment is reachable, and at the
assigned node and action its explicit set sits inside its effective
set. -/
theorem c9_rwp_subset_erwp_witness :
    Reachable (permissionAssignment (initSys 1 1 ℕ) 0 0 0) ∧
      (permissionAssignment (initSys 1 1 ℕ) 0 0 0).rwp 0 0 ⊆
        (permissionAssignment (initSys 1 1 ℕ) 0 0 0).erwp 0 0 := by
  have h : Reachable (permissionAssignment (initSys 1 1 ℕ) 0 0 0) :=
    Relation.ReflTransGen.single (Or.inr (AssignStep.assign _ 0 0 0))
  exact ⟨h, c9_rwp_subset_erwp h 0 0⟩

/-- C10: a single assignment never removes a role from any explicit or
effective permission set, at any node and action. -/
theorem c10_assign_monotone [DecidableEq α] (s : Sys m k α) (n : Fin m)
    (r : Fin k) (a : α) (i : Fin m) (x : α) :
    s.rwp i x ⊆ (permissionAssignment s n r a).rwp i x ∧
      s.erwp i x ⊆ (permissionAssignment s n r a).erwp i x := by
  constructor
  · rw [permissionAssignment, paw_rwp]
    split
    · exact Finset.subset_insert r _
    · exact Finset.Subset.refl _
  · rw [permissionAssignment]
    exact paw_erwp_mono s n r a _ i x

/-- C10 witness: concrete instance of the monotonicity at the assigned
node and action. -/
theorem c10_assign_monotone_witness :
    (initSys 1 1 ℕ).rwp 0 0 ⊆ (permissionAssignment (initSys 1 1 ℕ) 0 0 0).rwp 0 0 ∧
      (initSys 1 1 ℕ).erwp 0 0 ⊆ (permissionAssignment (initSys 1 1 ℕ) 0 0 0).erwp 0 0 :=
  c10_assign_monotone (initSys 1 1 ℕ) 0 0 0 0 0

theorem exA1_eval : exA1 = permissionAssignmentWith exA 1 0 0 (insert 0 ∅) := by
  rw [exA1, permissionAssignment, getAncestors_eq_empty exA.rparents 0 (by decide)]

theorem exA2_eval :
    exA2 = permissionAssignmentWith (permissionAssignmentWith exA 1 0 0 (insert 0 ∅))
      0 0 1 (insert 0 ∅) := by
  rw [exA2, exA1_eval, permissionAssignment,
    getAncestors_eq_empty (permissionAssignmentWith exA 1 0 0 (insert 0 ∅)).rparents 0
      (by decide)]

theorem exB1_eval : exB1 = permissionAssignmentWith exB 0 0 0 (insert 0 ∅) := by
  rw [exB1, permissionAssignment, getAncestors_eq_empty exB.rparents 0 (by decide)]

theorem exB2_eval :
    exB2 = permissionAssignmentWith (permissionAssignmentWith exB 0 0 0 (insert 0 ∅))
      2 0 1 (insert 0 ∅) := by
  rw [exB2, exB1_eval, permissionAssignment,
    getAncestors_eq_empty (permissionAssignmentWith exB 0 0 0 (insert 0 ∅)).rparents 0
      (by decide)]

theorem exB3_eval :
    exB3 = permissionAssignmentWith (permissionAssignmentWith
      (permissionAssignmentWith exB 0 0 0 (insert 0 ∅)) 2 0 1 (insert 0 ∅))
      1 0 2 (insert 0 ∅) := by
  rw [exB3, exB2_eval, permissionAssignment,
    getAncestors_eq_empty (permissionAssignmentWith (permissionAssignmentWith exB 0 0 0
      (insert 0 ∅)) 2 0 1 (insert 0 ∅)).rparents 0 (by decide)]

/-- C1: refuted by evaluation.  In `exB3` the last operation is
`permissionAssignment(node 1, role 0, action 2)`, and node 2 is a
strict descendant of node 1 (its direct child); yet
`canAccess(role 0, node 2, action 2)` is false (node 2, an earlier
permission boundary, was never linked into node 1's `accn`, and its
own `acpn` is `none`), while the assigned node itself answers true. -/
theorem c1_descendant_access_fails :
    exB3.parent 2 = some 1 ∧
      canAccess exB3 0 1 2 = true ∧
      canAccess exB3 0 2 2 = false := by
  rw [exB3_eval]
  decide

/-- C2: refuted by evaluation.  In `exA2` node 1 carries an explicit
permission (action 0), action 1 was never assigned at node 1 and role 0
is not in node 1's `erwp[1]`; yet `canAccess(role 0, node 1, action 1)`
answers true, by climbing to node 0: node 1's `acpn` was overwritten to
`some 0` by the root's later first assignment. -/
theorem c2_boundary_climbs_to_ancestor :
    exA2.rwpKeys 1 ≠ ∅ ∧
      (1 : ℕ) ∉ exA2.rwpKeys 1 ∧
      (0 : Fin 1) ∉ exA2.erwp 1 1 ∧
      canAccess exA2 0 1 1 = true := by
  rw [exA2_eval]
  decide

/-- C3: refuted by evaluation.  In `exA2` node 1 is a direct child of
node 0 and carries explicit permissions, so it is a nearest
permission-bearing strict descendant of node 0, yet node 0's `accn` is
empty (missing entry); and in `exB3` node 2 stays in node 0's `accn`
although the permission-bearing node 1 lies strictly between them
(non-nearest stale entry). -/
theorem c3_accn_not_nearest_boundary_set :
    (exA2.parent 1 = some 0 ∧ exA2.rwpKeys 1 ≠ ∅ ∧ exA2.accn 0 = ∅) ∧
      ((2 : Fin 3) ∈ exB3.accn 0 ∧ exB3.parent 1 = some 0 ∧
        exB3.parent 2 = some 1 ∧ exB3.rwpKeys 1 ≠ ∅) := by
  rw [exA2_eval, exB3_eval]
  decide

/-- C4: refuted by evaluation.  In `exA2` node 1's explicit-permission
map is non-empty (it was the first node assigned), but its
`acpn` is `some 0` instead of `none`: the root's later first
assignment re-pointed it because the equality test against the old
boundary also matches boundary nodes whose `acpn` is already `none`. -/
theorem c4_boundary_acpn_overwritten :
    exA2.rwpKeys 1 ≠ ∅ ∧ exA2.acpn 1 = some 0 := by
  rw [exA2_eval]
  decide

end RRBAC
